import Mathlib

/-!
# Verification of the userbot-tester request-mediation gateway

Shallow embedding of the request-processing pipeline of the repository
(`src/userbot_tester/`): the upstream conversation helpers (`mtproto.py`),
the proxy dispatcher (`proxy_bot.py`), the TTL cache (`cache_sqlite.py`)
and the batch executor (`excel_batch.py`).

Python strings are embedded as `List Char`; wall-clock / monotonic times as
`ℤ` / `ℚ` (floats are rationals); fallible operations return `Option`.
Each definition is translated from the named source function; the few data
points where the embedding abstracts the Python runtime (clock behaviour,
Unicode tables, float repr) are recorded in doc comments on the spot.
-/

namespace UserbotTester

/-! ## Character / string primitives

`List Char` stands for Python `str`. The helpers below model the exact
Python primitives used by the sources: `str.strip`, `str.split`,
`str.lower`/`str.casefold`, substring containment (`in`), prefix tests
(`startswith`). -/

/-- Model of Python's whitespace test (`str.isspace` / regex `\s`) for the
ASCII range: space, tab, newline, carriage return, vertical tab, form feed.
Unicode whitespace beyond ASCII is not modelled; no source string and no
claim in this development involves it. -/
def isPySpace (c : Char) : Bool :=
  c == ' ' || c == '\t' || c == '\n' || c == '\r' || c == '\x0b' || c == '\x0c'

/-- Model of Python `str.strip()`: drop whitespace from both ends. -/
def pyStrip (s : List Char) : List Char :=
  ((s.dropWhile isPySpace).reverse.dropWhile isPySpace).reverse

/-- Boolean prefix test, model of Python `str.startswith`. -/
def isPrefixB : List Char → List Char → Bool
  | [], _ => true
  | _ :: _, [] => false
  | a :: as, b :: bs => a == b && isPrefixB as bs

/-- Boolean contiguous-substring test, model of Python's `in` on strings. -/
def substrB (pat : List Char) : List Char → Bool
  | [] => pat.isEmpty
  | c :: cs => isPrefixB pat (c :: cs) || substrB pat cs

/-- Model of Python `str.lower` (and of `str.casefold`, which agrees with
`lower` on these alphabets) for ASCII letters and the Russian Cyrillic block
А..Я plus Ё. Other characters are returned unchanged; no source string uses
letters outside these ranges. -/
def pyLowerChar (c : Char) : Char :=
  if 'A' ≤ c ∧ c ≤ 'Z' then Char.ofNat (c.toNat + 32)
  else if 'А' ≤ c ∧ c ≤ 'Я' then Char.ofNat (c.toNat + 32)
  else if c = 'Ё' then 'ё'
  else c

/-- Model of Python `str.lower` on a whole string. -/
def pyLower (s : List Char) : List Char := s.map pyLowerChar

/-- Helper for `pySplit`: accumulates the current word (reversed). -/
def pySplitAux : List Char → List Char → List (List Char)
  | [], acc => if acc.isEmpty then [] else [acc.reverse]
  | c :: cs, acc =>
    if isPySpace c then
      if acc.isEmpty then pySplitAux cs [] else acc.reverse :: pySplitAux cs []
    else pySplitAux cs (c :: acc)

/-- Model of Python `str.split()` with no argument: split on runs of
whitespace, discarding empty pieces. -/
def pySplit (s : List Char) : List (List Char) := pySplitAux s []

/-- Model of `" ".join(words)`. -/
def joinSpace : List (List Char) → List Char
  | [] => []
  | [w] => w
  | w :: ws => w ++ ' ' :: joinSpace ws

/-- Model of `"\n".join(lines)`. -/
def joinLines : List (List Char) → List Char
  | [] => []
  | [l] => l
  | l :: ls => l ++ '\n' :: joinLines ls

/-! ## C3 — job queue admission (`proxy_bot.py`, `_enqueue_and_wait`)

`_enqueue_and_wait` runs `await queue.put(Job(...))` on an
`asyncio.Queue(maxsize=settings.queue_maxsize)`. Per asyncio semantics,
`put` appends immediately when the queue holds fewer than `maxsize` items
(or when `maxsize ≤ 0`, which means unbounded), and otherwise *suspends the
caller* until a slot frees. There is no code path that reports "queue full"
to the user. -/

/-- A queued job: `Job(inn=..., fio=..., future=...)`. The one-shot future
carries no information relevant to admission and is omitted. -/
structure Job where
  inn : List Char
  fio : List Char
deriving DecidableEq, Repr

/-- Outcome of `await queue.put(job)` at the moment of the call. -/
inductive PutOutcome where
  /-- The job was appended to the queue and the call returned at once. -/
  | enqueued (newQueue : List Job) : PutOutcome
  /-- The queue was full: the coroutine suspends until space frees.
  No value is returned to the caller at this point. -/
  | blocksUntilSpace : PutOutcome
deriving DecidableEq, Repr

/-- Model of `await queue.put(j)` on `asyncio.Queue(maxsize)` holding `q`:
non-positive `maxsize` means unbounded; a full bounded queue suspends. -/
def queuePut (maxsize : ℤ) (q : List Job) (j : Job) : PutOutcome :=
  if 0 < maxsize ∧ maxsize ≤ (q.length : ℤ) then .blocksUntilSpace
  else .enqueued (q ++ [j])

/-! ## C5 — circuit breaker (`mtproto.py`, `CircuitBreaker.open_for`) -/

/-- One `open_for(seconds)` call observed at monotonic time `now`:
`self._until = max(self._until, time.monotonic() + max(0.0, seconds))`. -/
def openFor (untilT now seconds : ℚ) : ℚ :=
  max untilT (now + max 0 seconds)

/-- A sequence of `open_for` calls, given as `(now, seconds)` pairs in call
order, folded over the starting `_until` value (`0.0` at construction). -/
def openForTrace (untilT : ℚ) : List (ℚ × ℚ) → ℚ
  | [] => untilT
  | c :: cs => openForTrace (openFor untilT c.1 c.2) cs

/-- Written from the spec's words, for comparison: "final `until` equals
`max` over `now_i + s_i`" (maximum of the raw `now + s` values, no clamp).
Defined for a non-empty call list as a left fold of `max` from the head. -/
def specFinalUntil (c : ℚ × ℚ) (cs : List (ℚ × ℚ)) : ℚ :=
  cs.foldl (fun acc d => max acc (d.1 + d.2)) (c.1 + c.2)

/-! ## C6 — TTL cache (`cache_sqlite.py`, `SqliteTTLCache`)

The sqlite table `cache(k PRIMARY KEY, v, created_at)` is a finite map from
keys to entries; `_get_sync` / `_set_sync` run under the cache's lock, so
they are modelled as pure state transformers taking the wall-clock second
`now` (the value of `int(time.time())` read inside the call). -/

/-- `CacheEntry(value, created_at)`. -/
structure CacheEntry where
  value : String
  createdAt : ℤ
deriving DecidableEq, Repr

/-- The cache table: key → entry. -/
def CacheDb : Type := String → Option CacheEntry

/-- Model of `_get_sync`: look the key up; if the entry exists and
`ttl > 0 and (now - created_at) > ttl`, delete it and report a miss.
Returns the result together with the table after the call. -/
def getSync (ttl : ℤ) (db : CacheDb) (now : ℤ) (k : String) :
    Option CacheEntry × CacheDb :=
  match db k with
  | none => (none, db)
  | some e =>
    if 0 < ttl ∧ ttl < now - e.createdAt then
      (none, fun x => if x = k then none else db x)
    else (some e, db)

/-- Model of `_set_sync`: upsert `(k, v, now)`. -/
def setSync (db : CacheDb) (now : ℤ) (k : String) (v : String) : CacheDb :=
  fun x => if x = k then some ⟨v, now⟩ else db x

/-! ## C9 — INN cell normalization (`excel_batch.py`, `_normalize_inn`) -/

/-- An Excel cell value as seen by openpyxl: `None`, an `int`, a `float`,
or a `str`. IEEE doubles are dyadic rationals, hence embedded in `ℚ`. -/
inductive CellValue where
  | none : CellValue
  | int (n : ℤ) : CellValue
  | float (q : ℚ) : CellValue
  | str (s : List Char) : CellValue

/-- Python `str()` of a non-integral float. Python's shortest-roundtrip
float repr is not modelled bit-exactly; no claim exercises this branch
(`_normalize_inn` reaches it only for a float with `not value.is_integer()`). -/
def pyFloatRepr (q : ℚ) : List Char := (toString q).data

/-- Model of `int(float(s))` for a stripped string `s` ending in `".0"`:
Python's `float()` accepts an optional sign, digits, a dot and fractional
digits. We parse `[+|-] digits ".0"` (the only shapes relevant here, since
the caller has already checked the `".0"` suffix) and return the integer
value; any other shape is `none`, modelling the `ValueError` of `float()`.
Two deliberate abstractions, stated where the theorems use this: digit
group underscores accepted by Python are not modelled, and `float()`'s
rounding to 53-bit binary is identity on the values the claims quantify
over (`|n| < 2^53`). -/
def pyParseDotZero (s : List Char) : Option ℤ :=
  if ['.', '0'].isSuffixOf s then
    let core := s.dropLast.dropLast
    let (neg, digits) :=
      match core with
      | '-' :: rest => (true, rest)
      | '+' :: rest => (false, rest)
      | rest => (false, rest)
    if digits.all (fun c => c.isDigit) then
      let n : ℤ := digits.foldl (fun acc c => acc * 10 + (c.toNat - '0'.toNat : ℤ)) 0
      some (if neg then -n else n)
    else Option.none
  else Option.none

/-- Model of `_normalize_inn` (`excel_batch.py`): `None` → `""`; a float
that `is_integer()` → `str(int(value))`; an int → `str(value)`; a string →
strip, and when it ends in `".0"`, try `str(int(float(s)))`, falling back
to the stripped string on `ValueError`. -/
def normalizeInn : CellValue → List Char
  | .none => []
  | .float q => if q.den = 1 then (toString q.num).data else pyFloatRepr q
  | .int n => (toString n).data
  | .str s =>
    let t := pyStrip s
    if ['.', '0'].isSuffixOf t then
      match pyParseDotZero t with
      | some n => (toString n).data
      | Option.none => t
    else t

/-! ## C4 — sliding-window rate limiter (`mtproto.py`, `RateLimiter`)

`acquire()` runs under the limiter's lock, so calls are serialized. One call
is modelled as a function of the retained timestamp list and the monotonic
clock value `now` at entry. Clock model (within the contracts of
`time.monotonic()` and `asyncio.sleep`): the clock is non-decreasing and may
return the same value twice; `asyncio.sleep(d)` wakes no earlier than its
target, and waking exactly at the target is an admissible execution, which
is the behaviour embedded here. The second and third `time.monotonic()`
reads of the body are taken at the wake-up instant. -/

/-- The trim `self._ts = [t for t in self._ts if t >= cutoff]` with
`cutoff = now - window`. -/
def limiterTrim (window now : ℚ) (ts : List ℚ) : List ℚ :=
  ts.filter (fun t => decide (now - window ≤ t))

/-- One `RateLimiter.acquire()` call entered at monotonic time `now`:
trim; if the window still holds `maxActions` timestamps, sleep until
`ts[0] + window` (no sleep when that lies in the past), re-read the clock,
re-trim once, and append the completion time. Returns the new list and the
time at which the call returns. `headD 0` stands for `self._ts[0]`, read
only when the list is non-empty (the constructor clamps `max_actions ≥ 1`,
so the branch guard guarantees this). -/
def acquireStep (maxActions : ℕ) (window : ℚ) (ts : List ℚ) (now : ℚ) :
    List ℚ × ℚ :=
  let ts1 := limiterTrim window now ts
  if maxActions ≤ ts1.length then
    let target := ts1.headD 0 + window
    let now2 := if 0 < target - now then target else now
    let ts2 := limiterTrim window now2 ts1
    (ts2 ++ [now2], now2)
  else (ts1 ++ [now], now)

/-- Completion times of a serialized sequence of `acquire()` calls. The
schedule lists the clock value at each call's entry; serialization through
the limiter's mutex forces each entry time to be at least the previous
call's completion time, hence the `max`. -/
def acquireTrace (maxActions : ℕ) (window : ℚ) (schedule : List ℚ) :
    List ℚ :=
  go [] 0 schedule
where
  go (ts : List ℚ) (prevDone : ℚ) : List ℚ → List ℚ
    | [] => []
    | now :: rest =>
      let start := if now ≤ prevDone then prevDone else now
      let step := acquireStep maxActions window ts start
      step.2 :: go step.1 step.2 rest

/-! ## C7 — per-user quota (`proxy_bot.py`, `PerUserQuota.allow`)

`self._hits` maps each `user_id` to its own deque; `allow` touches only the
caller's deque, so one user's deque is modelled independently. Times come
from `time.monotonic()`, hence the schedule of a user's calls is
non-decreasing. -/

/-- The trim `while q and (now - q[0]) > window: q.popleft()` with
`window = 3600.0`. -/
def quotaTrim (now : ℚ) : List ℚ → List ℚ
  | [] => []
  | t :: ts => if 3600 < now - t then quotaTrim now ts else t :: ts

/-- One `allow` call for a fixed user at monotonic time `now`, on that
user's deque `q`: trim; if `quota` (the clamped `per_hour`) timestamps
remain, reject with `max(1.0, 3600 - (now - q[0]))`; else append `now`
and admit. Returns (new deque, admitted?, retry_after). `headD 0` stands
for `q[0]`, read only when the guard makes the deque non-empty. -/
def allowStep (quota : ℕ) (q : List ℚ) (now : ℚ) : List ℚ × Bool × ℚ :=
  let q1 := quotaTrim now q
  if quota ≤ q1.length then (q1, false, max 1 (3600 - (now - q1.headD 0)))
  else (q1 ++ [now], true, 0)

/-- A serialized sequence of `allow` calls for one user at the clock values
in `schedule`; returns the admitted request times and the final deque. -/
def allowRun (quota : ℕ) (q : List ℚ) : List ℚ → List ℚ × List ℚ
  | [] => ([], q)
  | now :: rest =>
    let step := allowStep quota q now
    let tail := allowRun quota step.1 rest
    (if step.2.1 then now :: tail.1 else tail.1, tail.2)

/-- Admitted request times for a user over a schedule, starting empty. -/
def allowTrace (quota : ℕ) (schedule : List ℚ) : List ℚ :=
  (allowRun quota [] schedule).1

/-- Number of admitted times falling in the closed window `[t, t + 3600]`. -/
def winCount (t : ℚ) (admitted : List ℚ) : ℕ :=
  (admitted.filter (fun a => decide (t ≤ a ∧ a ≤ t + 3600))).length

/-! ## C8 — control location (`mtproto.py`, `find_button_coords_by_text`)

The control grid is `msg.buttons`: a list of rows, each button carrying an
optional text (`getattr(b, "text", None)`); `if not bt: continue` skips
buttons whose text is missing *or* the empty string. -/

/-- `norm(s) = " ".join(s.split()).casefold()`: whitespace-collapse followed
by case folding (`pyLowerChar` models `casefold` on the alphabets in use). -/
def normText (s : List Char) : List Char :=
  (joinSpace (pySplit s)).map pyLowerChar

/-- One pass of the source's nested loops over one row, with the running
column index `j`: skip missing/empty texts, return the first `j` whose text
satisfies `p`. -/
def rowPass (p : List Char → Bool) (j : ℕ) : List (Option (List Char)) → Option ℕ
  | [] => Option.none
  | Option.none :: bs => rowPass p (j + 1) bs
  | some t :: bs =>
    if t.isEmpty then rowPass p (j + 1) bs
    else if p t then some j else rowPass p (j + 1) bs

/-- One pass of the source's nested loops over the grid, with the running
row index `i`. -/
def gridPass (p : List Char → Bool) (i : ℕ) :
    List (List (Option (List Char))) → Option (ℕ × ℕ)
  | [] => Option.none
  | row :: rows =>
    match rowPass p 0 row with
    | some j => some (i, j)
    | Option.none => gridPass p (i + 1) rows

/-- Model of `find_button_coords_by_text(msg, target_text)`: `None` when
there are no buttons; otherwise two passes — exact normalized equality
first, then substring containment of the normalized target. -/
def findButtonCoordsByText (grid : List (List (Option (List Char))))
    (target : List Char) : Option (ℕ × ℕ) :=
  if grid.isEmpty then Option.none
  else
    let want := normText target
    match gridPass (fun bt => normText bt == want) 0 grid with
    | some ij => some ij
    | Option.none => gridPass (fun bt => substrB want (normText bt)) 0 grid

/-- Row-major enumeration of the buttons the source considers (texts that
are present and non-empty), with their coordinates. -/
def enumGrid (i : ℕ) : List (List (Option (List Char))) →
    List ((ℕ × ℕ) × List Char)
  | [] => []
  | row :: rows => enumRow i 0 row ++ enumGrid (i + 1) rows
where
  enumRow (i j : ℕ) : List (Option (List Char)) → List ((ℕ × ℕ) × List Char)
    | [] => []
    | Option.none :: bs => enumRow i (j + 1) bs
    | some t :: bs =>
      if t.isEmpty then enumRow i (j + 1) bs
      else ((i, j), t) :: enumRow i (j + 1) bs

/-- Earliest coordinate in an enumeration whose text satisfies `p`. -/
def firstHit (p : List Char → Bool) (l : List ((ℕ × ℕ) × List Char)) :
    Option (ℕ × ℕ) :=
  (l.find? (fun x => p x.2)).map Prod.fst

/-- Row-major enumeration of *every* button that has a text, with no
emptiness skip — the reading the claim takes, written from the spec's
words for comparison with the source's behaviour. -/
def enumGridAll (i : ℕ) : List (List (Option (List Char))) →
    List ((ℕ × ℕ) × List Char)
  | [] => []
  | row :: rows => enumRowAll i 0 row ++ enumGridAll (i + 1) rows
where
  enumRowAll (i j : ℕ) : List (Option (List Char)) → List ((ℕ × ℕ) × List Char)
    | [] => []
    | Option.none :: bs => enumRowAll i (j + 1) bs
    | some t :: bs => ((i, j), t) :: enumRowAll i (j + 1) bs

/-- Written from the spec's words: the row-major-earliest button whose
normalized text equals the normalized label, else the earliest whose
normalized text contains it, over all buttons that have a text. -/
def specLocateControl (grid : List (List (Option (List Char))))
    (target : List Char) : Option (ℕ × ℕ) :=
  let want := normText target
  match firstHit (fun bt => normText bt == want) (enumGridAll 0 grid) with
  | some ij => some ij
  | Option.none => firstHit (fun bt => substrB want (normText bt)) (enumGridAll 0 grid)

/-! ## Line-anchored field regexes (`mtproto.py`)

`FIO_RE = ^ФИО:\s*(.+)$`, `PHONE_LINE_RE = ^Телефон:\s*(.+)$`,
`EMAIL_LINE_RE = ^Email:\s*(.+)$`, all with `re.MULTILINE`, used through
`re.search` (leftmost match). Semantics embedded below:

* `^` matches at offset 0 and right after every `'\n'`;
* `\s*` is greedy with backtracking and, crucially, also consumes `'\n'`;
* `(.+)` is a non-empty greedy run of non-`'\n'` characters and `$`
  matches at a `'\n'` or at the end, so the group runs to the end of the
  line on which it starts.

Hence a match attempt at one line start with tail `s` after the label
succeeds iff some `k ≤` (length of the whitespace run of `s`) leaves a
non-`'\n'` character at position `k`; the greedy engine takes the largest
such `k` and the group is `takeWhile (· ≠ '\n')` of `drop k s`. When every
`k` fails, `re.search` moves on to the next line start. -/

/-- Length of the `\s*` run at the head of `s`. -/
def wsRunLen (s : List Char) : ℕ := (s.takeWhile isPySpace).length

/-- Whether `(.+)$` can start at offset `k` of `s`: a character exists
there and is not a newline. -/
def okAt (s : List Char) (k : ℕ) : Bool :=
  match s.drop k with
  | [] => false
  | c :: _ => c != '\n'

/-- Largest `k' ≤ k` at which `(.+)$` can start (the greedy `\s*` choice),
if any. -/
def greedyK (s : List Char) : ℕ → Option ℕ
  | 0 => if okAt s 0 then some 0 else Option.none
  | k + 1 => if okAt s (k + 1) then some (k + 1) else greedyK s k

/-- Attempt `\s*(.+)$` on the tail `s` following the label at one line
start; on success, the captured group. -/
def matchTail (s : List Char) : Option (List Char) :=
  match greedyK s (wsRunLen s) with
  | some k => some ((s.drop k).takeWhile (fun c => c != '\n'))
  | Option.none => Option.none

/-- Leftmost-match scan of `re.search` for `^<label>\s*(.+)$` (MULTILINE):
walk the string; at every line start (`atStart`), if the label is a prefix
and the tail matches, capture; otherwise advance one character, the next
position being a line start exactly when the character passed was `'\n'`. -/
def reSearch (label : List Char) (atStart : Bool) : List Char → Option (List Char)
  | [] => Option.none
  | c :: s =>
    match (if atStart && isPrefixB label (c :: s) then
             matchTail ((c :: s).drop label.length)
           else Option.none) with
    | some g => some g
    | Option.none => reSearch label (c == '\n') s

/-- `SUMMARY_MARKER = "📄 Краткая сводка"`. -/
def summaryMarker : List Char := "📄 Краткая сводка".data

/-- The label of `FIO_RE`. -/
def fioLabel : List Char := "ФИО:".data

/-- The label of `PHONE_LINE_RE`. -/
def phoneLabel : List Char := "Телефон:".data

/-- The label of `EMAIL_LINE_RE`. -/
def emailLabel : List Char := "Email:".data

/-! ## C10 — safe projection (`mtproto.py`, `keep_only_fio_phone_email_masked`) -/

/-- One optional projection line: `lines.append(f"<label> {value}")` guarded
by the field's truthiness (`if fio:` etc. — `None` and the empty string are
both skipped). -/
def projLine (label : List Char) : Option (List Char) → List (List Char)
  | some v => if v.isEmpty then [] else [label ++ ' ' :: v]
  | Option.none => []

/-- The reassembled projection lines: the marker header is prepended by the
caller; here the `ФИО:`, `Телефон:`, `Email:` lines for the present, truthy
fields, in this order. -/
def projectionLines (fio phone email : Option (List Char)) : List (List Char) :=
  projLine fioLabel fio ++ projLine phoneLabel phone ++ projLine emailLabel email

/-- Model of `keep_only_fio_phone_email_masked(text)`: search the three
line-anchored patterns; strip the FIO value; `_mask_phone` and
`_mask_email` are the identity, so phone and email keep the raw group;
rebuild the marker header plus the present field lines. -/
def keepOnlyFioPhoneEmailMasked (text : List Char) : List Char :=
  let fio := (reSearch fioLabel true text).map pyStrip
  let phone := reSearch phoneLabel true text
  let email := reSearch emailLabel true text
  joinLines (summaryMarker :: projectionLines fio phone email)

/-! ## C1 — burst classification (`proxy_bot.py`, `_process_one`, lines
181–247, with `mtproto.py`'s `find_limit_message` / `find_summary_message`)

The collected burst is the list of message texts (`m.message or ""`).
`parse_summary_fields` and `is_not_found_message` are imported from
`userbot_tester.mtproto` but absent from the sources under `src/`; they are
modelled from the spec where marked below. -/

/-- Model of `MTProtoBotChat.is_limit_exhausted_message`: on the stripped,
lowercased text, substring test for `"лимит запросов"` together with
`"исчерпан"` (the `"временно исчерпан"` alternative is subsumed and kept
for fidelity). -/
def isLimitExhausted (text : List Char) : Bool :=
  let t := pyLower (pyStrip text)
  substrB ("лимит запросов".data) t &&
    (substrB ("исчерпан".data) t || substrB ("временно исчерпан".data) t)

/-- Model of `find_limit_message`: last message whose stripped text is
non-empty and matches the limit-exhausted phrase. -/
def findLimitMessage (msgs : List (List Char)) : Option (List Char) :=
  msgs.reverse.find? (fun m =>
    let t := pyStrip m
    !t.isEmpty && isLimitExhausted t)

/-- Model of `find_summary_message`: last message whose stripped text
starts with, or contains, the summary marker. -/
def findSummaryMessage (msgs : List (List Char)) : Option (List Char) :=
  msgs.reverse.find? (fun m =>
    let t := pyStrip m
    isPrefixB summaryMarker t || substrB summaryMarker t)

/-- Modelled from the spec: `is_not_found_message` is imported from the
upstream-driver module but missing from `src/`; the spec says the reply
"matches \"not found\"" and shows the upstream phrase in the end-to-end
scenarios. Modelled as a case-insensitive substring test for
`"ничего не найдено"` on the stripped text. -/
def isNotFoundMessage (text : List Char) : Bool :=
  substrB ("ничего не найдено".data) (pyLower (pyStrip text))

/-- Modelled from the spec: `parse_summary_fields` is imported from the
upstream-driver module but missing from `src/`; the spec describes it as
"three independent line-anchored patterns — `ФИО: <value>`,
`Телефон: <value>`, `Email: <value>`. Each may be absent." Modelled with
the same line-anchored search the module uses for its field regexes.
Returns the raw `(fio, phone, email)` groups. -/
def parseSummaryFields (text : List Char) :
    Option (List Char) × Option (List Char) × Option (List Char) :=
  (reSearch fioLabel true text, reSearch phoneLabel true text,
   reSearch emailLabel true text)

/-- `JobResult(inn, fio, phone, email, status, safe_text)`; `status` is one
of `OK / NOT_FOUND / LIMIT / FORBIDDEN / FLOOD / ERROR`. -/
structure JobResult where
  inn : List Char
  fio : List Char
  phone : List Char
  email : List Char
  status : String
  safeText : List Char
deriving DecidableEq, Repr

/-- `(fields.get(k) or default)`: Python `or` falls through on `None` and
on the empty string. -/
def orFalsy (o : Option (List Char)) (d : List Char) : List Char :=
  match o with
  | some v => if v.isEmpty then d else v
  | Option.none => d

/-- Model of the classification stage of `_process_one` after
`click_button_and_collect` (`proxy_bot.py` lines 181–247): limit check,
then summary search; without a summary, fall back to the last non-empty
collected text; parse fields, strip them, and set the status —
`"OK" if (phone or email) else "ERROR"`, with the not-found test taking
precedence. -/
def classifyCollected (msgs : List (List Char)) (inn fio : List Char) :
    JobResult :=
  match findLimitMessage msgs with
  | some _ =>
    ⟨inn, fio, [], [], "LIMIT", "⚠️ Лимит запросов на день исчерпан. Попробуйте завтра.".data⟩
  | Option.none =>
    match findSummaryMessage msgs with
    | Option.none =>
      let texts := (msgs.map pyStrip).filter (fun t => !t.isEmpty)
      let raw := texts.getLastD []
      if !raw.isEmpty && isNotFoundMessage raw then
        ⟨inn, fio, [], [], "NOT_FOUND", "❌ По данному запросу ничего не найдено.".data⟩
      else
        let safe := if !raw.isEmpty then keepOnlyFioPhoneEmailMasked raw
                    else "❌ После клика не удалось получить текст.".data
        let fields := if !raw.isEmpty then parseSummaryFields raw
                      else (Option.none, Option.none, Option.none)
        let phone := pyStrip (orFalsy fields.2.1 [])
        let email := pyStrip (orFalsy fields.2.2 [])
        let fioOut := pyStrip (orFalsy fields.1 fio)
        let status := if !phone.isEmpty || !email.isEmpty then "OK" else "ERROR"
        ⟨inn, fioOut, phone, email, status, safe⟩
    | some m =>
      let rawText := pyStrip m
      if isNotFoundMessage rawText then
        ⟨inn, fio, [], [], "NOT_FOUND", "❌ По данному запросу ничего не найдено.".data⟩
      else
        let safe := keepOnlyFioPhoneEmailMasked rawText
        let fields := parseSummaryFields rawText
        let phone := pyStrip (orFalsy fields.2.1 [])
        let email := pyStrip (orFalsy fields.2.2 [])
        let fioOut := pyStrip (orFalsy fields.1 fio)
        let status := if !phone.isEmpty || !email.isEmpty then "OK" else "ERROR"
        ⟨inn, fioOut, phone, email, status, safe⟩

/-! ## C2 — batch processing loop (`proxy_bot.py`, `handle_excel`, lines
384–432, with `excel_batch.py`'s writers)

The loop consults the cache and, on a miss, awaits the worker through
`_enqueue_and_wait`; both effects are abstracted into a per-row outcome
oracle, which is the only impurity of the loop. On a cached value the row
result is rebuilt from `parse_summary_fields`; statuses on that path are
`"OK"` in both branches of the source's conditional (line 401). When a job
result has status LIMIT, the result *is appended first*, then the remaining
rows are moved to pending and the loop `break`s (the `if limit_hit:
continue` guard at the top of the loop body is unreachable because of the
`break`). -/

/-- `InputRow(row_index, inn, fio)` from `excel_batch.py`. -/
structure InputRow where
  rowIndex : ℕ
  inn : List Char
  fio : List Char
deriving DecidableEq, Repr

/-- What processing one row yields: a cache hit with the stored projection,
or the worker's `JobResult`. -/
inductive RowOutcome where
  | cachedVal (v : List Char) : RowOutcome
  | jobRes (r : JobResult) : RowOutcome

/-- The result-row dict built on a cache hit (lines 396–411): fields parsed
from the cached projection, status `"OK"` (the source computes
`"OK" if (phone or email) else "OK"`). -/
def cachedResult (r : InputRow) (v : List Char) : JobResult :=
  let fields := parseSummaryFields v
  let phone := pyStrip (orFalsy fields.2.1 [])
  let email := pyStrip (orFalsy fields.2.2 [])
  let fioOut := pyStrip (orFalsy fields.1 r.fio)
  ⟨r.inn, if fioOut.isEmpty then r.fio else fioOut, phone, email, "OK", v⟩

/-- The result row a given row contributes to `results`. -/
def rowResult (outcome : InputRow → RowOutcome) (r : InputRow) : JobResult :=
  match outcome r with
  | .cachedVal v => cachedResult r v
  | .jobRes res => res

/-- Model of the `for idx0, r in enumerate(rows)` loop of `handle_excel`:
append each row's result; when a job result carries status LIMIT, stop —
the rows after it become `pending_rows` (`rows[idx0 + 1:]`). Returns
`(results, pending_rows)`. -/
def processRows (outcome : InputRow → RowOutcome) :
    List InputRow → List JobResult × List InputRow
  | [] => ([], [])
  | r :: rest =>
    match outcome r with
    | .cachedVal v =>
      let tail := processRows outcome rest
      (cachedResult r v :: tail.1, tail.2)
    | .jobRes res =>
      if res.status = "LIMIT" then ([res], rest)
      else
        let tail := processRows outcome rest
        (res :: tail.1, tail.2)

/-- Rows of `output_<timestamp>.xlsx` (`write_output_xlsx`): the header
`ИНН, ФИО, Телефон, Email, Статус`, then one row per processed result. -/
def outputFileRows (results : List JobResult) : List (List (List Char)) :=
  ["ИНН".data, "ФИО".data, "Телефон".data, "Email".data, "Статус".data] ::
    results.map (fun r => [r.inn, r.fio, r.phone, r.email, r.status.data])

/-- Rows of `pending_<timestamp>.xlsx` (`write_pending_xlsx`): the header
`ИНН, ФИО`, then one row per pending input row. -/
def pendingFileRows (pending : List InputRow) : List (List (List Char)) :=
  ["ИНН".data, "ФИО".data] :: pending.map (fun r => [r.inn, r.fio])

/-! # Theorems -/

/-! ## Circuit breaker lemmas -/

theorem openFor_le_self (u now s : ℚ) : u ≤ openFor u now s :=
  le_max_left _ _

theorem openForTrace_le (u : ℚ) (calls : List (ℚ × ℚ)) :
    u ≤ openForTrace u calls := by
  induction calls generalizing u with
  | nil => exact le_refl u
  | cons c cs ih => exact le_trans (openFor_le_self u c.1 c.2) (ih _)

theorem openForTrace_append (u : ℚ) (a b : List (ℚ × ℚ)) :
    openForTrace u (a ++ b) = openForTrace (openForTrace u a) b := by
  induction a generalizing u with
  | nil => rfl
  | cons c cs ih => simp only [List.cons_append, openForTrace]; exact ih _

theorem mem_le_openForTrace (u : ℚ) (calls : List (ℚ × ℚ)) (c : ℚ × ℚ)
    (hc : c ∈ calls) : c.1 + max 0 c.2 ≤ openForTrace u calls := by
  induction calls generalizing u with
  | nil => cases hc
  | cons d ds ih =>
    rcases List.mem_cons.mp hc with h | h
    · subst h
      exact le_trans (le_max_right _ _) (openForTrace_le (openFor u c.1 c.2) ds)
    · exact ih _ h

theorem openForTrace_attained (u : ℚ) (calls : List (ℚ × ℚ)) :
    openForTrace u calls = u ∨
      ∃ c ∈ calls, openForTrace u calls = c.1 + max 0 c.2 := by
  induction calls generalizing u with
  | nil => exact Or.inl rfl
  | cons d ds ih =>
    have hstep : openForTrace u (d :: ds) = openForTrace (openFor u d.1 d.2) ds := rfl
    rcases ih (openFor u d.1 d.2) with h | ⟨c, hc, he⟩
    · rcases max_choice u (d.1 + max 0 d.2) with hm | hm
      · exact Or.inl (by rw [hstep, h, openFor, hm])
      · exact Or.inr ⟨d, List.mem_cons_self d ds, by rw [hstep, h, openFor, hm]⟩
    · exact Or.inr ⟨c, List.mem_cons_of_mem d hc, by rw [hstep, he]⟩

/-- Claim C5 (amended): every `open_for(s)` call sets
`until ← max(until, now + max(0, s))`, so `until` never decreases —
neither along the call sequence nor under further calls — and the final
value is exactly the maximum of the initial value and the clamped call
values `now_i + max(0, s_i)` (for a negative `s_i` the raw `now_i + s_i`
of the original claim is not attained; see the counterexample). -/
theorem claim_C5 (u : ℚ) (calls : List (ℚ × ℚ)) :
    u ≤ openForTrace u calls ∧
    (∀ suf, openForTrace u calls ≤ openForTrace u (calls ++ suf)) ∧
    (∀ c ∈ calls, c.1 + max 0 c.2 ≤ openForTrace u calls) ∧
    (openForTrace u calls = u ∨
      ∃ c ∈ calls, openForTrace u calls = c.1 + max 0 c.2) :=
  ⟨openForTrace_le u calls,
   fun suf => by rw [openForTrace_append]; exact openForTrace_le _ suf,
   fun c hc => mem_le_openForTrace u calls c hc,
   openForTrace_attained u calls⟩

/-- Claim C5, counterexample to the claim as stated: for the single call
`open_for(-3)` at `now = 5` from `until = 0`, the final `until` is `5`,
not the claimed maximum over `now_i + s_i`, which is `2`. -/
theorem claim_C5_counterexample :
    openForTrace 0 [((5 : ℚ), -3)] = 5 ∧ specFinalUntil ((5 : ℚ), -3) [] = 2 ∧
      openForTrace 0 [((5 : ℚ), -3)] ≠ specFinalUntil ((5 : ℚ), -3) [] := by
  refine ⟨?_, ?_, ?_⟩ <;> norm_num [openForTrace, openFor, specFinalUntil]

/-- Claim C5, witness: instantiating the amended theorem at the calls
`(now, s) = (1, 2), (3, 1)` from `until = 0`. -/
theorem claim_C5_witness :
    ((1 : ℚ) + max 0 2 ≤ openForTrace 0 [((1 : ℚ), 2), (3, 1)]) ∧
      openForTrace 0 [((1 : ℚ), 2), (3, 1)] ≤
        openForTrace 0 ([((1 : ℚ), 2), (3, 1)] ++ [(9, 0)]) :=
  ⟨(claim_C5 0 [((1 : ℚ), 2), (3, 1)]).2.2.1 ((1 : ℚ), 2) (by simp),
   (claim_C5 0 [((1 : ℚ), 2), (3, 1)]).2.1 [(9, 0)]⟩

/-- Claim C3 (amended): with a bounded queue (`maxsize > 0`) already
holding at least `maxsize` jobs, `await queue.put(job)` suspends the
caller until space frees — it neither returns a "queue full" outcome
(no such outcome exists) nor informs the user; in every other state the
job is appended at once. -/
theorem claim_C3 (maxsize : ℤ) (q : List Job) (j : Job) :
    (0 < maxsize → maxsize ≤ (q.length : ℤ) →
      queuePut maxsize q j = .blocksUntilSpace) ∧
    (¬ (0 < maxsize ∧ maxsize ≤ (q.length : ℤ)) →
      queuePut maxsize q j = .enqueued (q ++ [j])) := by
  constructor
  · intro h1 h2
    simp only [queuePut, if_pos (And.intro h1 h2)]
  · intro h
    simp only [queuePut, if_neg h]

/-- Claim C3, counterexample to the claim as stated: with
`queue_maxsize = 1` and the queue already holding one job, the enqueue
attempt of `_enqueue_and_wait` suspends the caller (`await queue.put`
never returns a "queue full" value — the `PutOutcome` type of the
embedding has no such constructor, because no source path produces one). -/
theorem claim_C3_counterexample :
    queuePut 1 [⟨"1".data, "Иванов".data⟩] ⟨"2".data, "Петров".data⟩ =
      .blocksUntilSpace := by decide

/-- Claim C3, witness: the amended theorem applied at a concrete full
queue. -/
theorem claim_C3_witness :
    queuePut 2 [⟨"1".data, "a".data⟩, ⟨"2".data, "b".data⟩] ⟨"3".data, "c".data⟩ =
      .blocksUntilSpace :=
  (claim_C3 2 [⟨"1".data, "a".data⟩, ⟨"2".data, "b".data⟩] ⟨"3".data, "c".data⟩).1
    (by decide) (by decide)

/-- Claim C6: after `set(k, v)` at second `t_set`, a `get(k)` at `now`
within the TTL returns the entry `(v, t_set)` with `t_set ≤ now`; and a
`get(k)` that finds an entry with `ttl > 0` and `now − created_at > ttl`
deletes it and reports a miss. -/
theorem claim_C6 (ttl : ℤ) (db : CacheDb) (tset now : ℤ) (k v : String) :
    (tset ≤ now → now - tset ≤ ttl →
      (getSync ttl (setSync db tset k v) now k).1 = some ⟨v, tset⟩ ∧ tset ≤ now) ∧
    (∀ e : CacheEntry, db k = some e → 0 < ttl → ttl < now - e.createdAt →
      (getSync ttl db now k).1 = Option.none ∧
        (getSync ttl db now k).2 k = Option.none) := by
  constructor
  · intro h1 h2
    have hk : setSync db tset k v k = some ⟨v, tset⟩ := by simp [setSync]
    refine ⟨?_, h1⟩
    simp only [getSync, hk]
    rw [if_neg]
    push_neg
    intro _
    exact h2
  · intro e he h1 h2
    simp only [getSync, he]
    rw [if_pos ⟨h1, h2⟩]
    simp

/-- Claim C6, witness: a round trip at `ttl = 10`, `set` at second 5,
`get` at second 7; and an expired read at second 100 of an entry created
at second 0. -/
theorem claim_C6_witness :
    (getSync 10 (setSync (fun _ => Option.none) 5 "k" "val") 7 "k").1 =
        some ⟨"val", 5⟩ ∧
      (getSync 10 (fun _ => some ⟨"old", 0⟩) 100 "k").1 = Option.none :=
  ⟨((claim_C6 10 (fun _ => Option.none) 5 7 "k" "val").1 (by decide) (by decide)).1,
   ((claim_C6 10 (fun _ => some ⟨"old", 0⟩) 100 100 "k" "x").2 ⟨"old", 0⟩ rfl
      (by decide) (by decide)).1⟩

/-- A successful `pyParseDotZero` implies the `".0"` suffix test that
guards it in `normalizeInn`. -/
theorem pyParseDotZero_isSuffix (s : List Char) (n : ℤ)
    (hp : pyParseDotZero s = some n) : ['.', '0'].isSuffixOf s = true := by
  by_contra h
  rw [Bool.not_eq_true] at h
  simp [pyParseDotZero, h] at hp

/-- Claim C9: INN cell normalization — the three concrete examples of the
spec; integer cells stringify directly; integral floats stringify via
`int`; stripped strings with a parsable trailing `".0"` stringify via
`int(float(s))` (exact for `|n| < 2^53`, where Python's binary float is
identity on the integer); strings without the `".0"` suffix are trimmed. -/
theorem claim_C9 :
    (normalizeInn (.float 2222058686) = "2222058686".data ∧
     normalizeInn (.str "2222058686.0".data) = "2222058686".data ∧
     normalizeInn (.str "2222058686".data) = "2222058686".data) ∧
    (∀ n : ℤ, normalizeInn (.int n) = (toString n).data) ∧
    (∀ q : ℚ, q.den = 1 → normalizeInn (.float q) = (toString q.num).data) ∧
    (∀ (s : List Char) (n : ℤ), pyParseDotZero (pyStrip s) = some n →
      n.natAbs < 2 ^ 53 → normalizeInn (.str s) = (toString n).data) ∧
    (∀ s : List Char, ['.', '0'].isSuffixOf (pyStrip s) = false →
      normalizeInn (.str s) = pyStrip s) := by
  refine ⟨by decide, fun n => rfl, ?_, ?_, ?_⟩
  · intro q hq
    simp [normalizeInn, hq]
  · intro s n hp _
    have hsfx := pyParseDotZero_isSuffix _ _ hp
    simp [normalizeInn, hsfx, hp]
  · intro s h
    simp [normalizeInn, h]

/-- Claim C9, witness: the integral-float and `".0"`-string clauses of the
theorem applied at `7.0` and `" -12.0 "`. -/
theorem claim_C9_witness :
    normalizeInn (.float (7 : ℚ)) = "7".data ∧
      normalizeInn (.str " -12.0 ".data) = "-12".data :=
  ⟨claim_C9.2.2.1 7 (by decide),
   claim_C9.2.2.2.1 " -12.0 ".data (-12) (by decide) (by decide)⟩

/-- Claim C4: evaluation of the limiter at the failing input. With
`N = 1`, `W = 1` and serialized `acquire()` calls entered at monotonic
times `0, 0, 1` (each sleep waking exactly at its target, an execution
admitted by `asyncio.sleep`), the completions are at `0, 1, 1`: two
acquisitions complete inside the window `[1, 2]` — the boundary trim
`t >= cutoff` keeps the timestamp that is exactly `W` old, the sleep only
reaches that boundary, and the append is unconditional, so the documented
"max_actions per window_seconds" bound fails. -/
theorem claim_C4 :
    acquireTrace 1 1 [0, 0, 1] = [0, 1, 1] ∧
    1 < ((acquireTrace 1 1 [0, 0, 1]).filter
        (fun c => decide ((1 : ℚ) ≤ c ∧ c ≤ 1 + 1))).length := by
  constructor <;> norm_num [acquireTrace, acquireTrace.go, acquireStep, limiterTrim]

/-! ## Batch LIMIT short-circuit (C2) -/

/-- The five-row batch of the claim's end-to-end scenario (Excel rows
2–6): no cache hits, the first three jobs return OK, the fourth returns
LIMIT, the fifth is never reached. -/
def limitBatchRows : List InputRow :=
  [⟨2, "1".data, "a".data⟩, ⟨3, "2".data, "b".data⟩, ⟨4, "3".data, "c".data⟩,
   ⟨5, "4".data, "d".data⟩, ⟨6, "5".data, "e".data⟩]

/-- Per-row outcomes for `limitBatchRows`: the row at Excel index 5 (the
fourth data row) completes with status LIMIT, every other row with OK. -/
def limitBatchOutcome (r : InputRow) : RowOutcome :=
  .jobRes ⟨r.inn, r.fio, [], [], if r.rowIndex = 5 then "LIMIT" else "OK", []⟩

/-- Claim C2 (amended): when a job result carries status LIMIT, processing
stops; the rows *after* the LIMIT row become the pending file and do not
appear in the output, but the LIMIT row itself is appended to the results
(with status LIMIT) before the loop breaks, so it appears in the output
file and not in the pending file. For the 5-row scenario the output holds
4 rows (OK/OK/OK/LIMIT) and the pending file holds only row 5. -/
theorem claim_C2 (outcome : InputRow → RowOutcome) (done : List InputRow)
    (limitRow : InputRow) (rest : List InputRow)
    (hdone : ∀ r ∈ done, (rowResult outcome r).status ≠ "LIMIT")
    (hlimit : (rowResult outcome limitRow).status = "LIMIT") :
    processRows outcome (done ++ limitRow :: rest) =
      (done.map (rowResult outcome) ++ [rowResult outcome limitRow], rest) ∧
    outputFileRows (processRows outcome (done ++ limitRow :: rest)).1 =
      outputFileRows (done.map (rowResult outcome) ++ [rowResult outcome limitRow]) ∧
    pendingFileRows (processRows outcome (done ++ limitRow :: rest)).2 =
      pendingFileRows rest := by
  have key : processRows outcome (done ++ limitRow :: rest) =
      (done.map (rowResult outcome) ++ [rowResult outcome limitRow], rest) := by
    induction done with
    | nil =>
      simp only [List.nil_append, List.map_nil]
      cases h : outcome limitRow with
      | cachedVal v =>
        simp only [rowResult, h, cachedResult] at hlimit
        exact absurd hlimit (by decide)
      | jobRes res =>
        have hres : res.status = "LIMIT" := by
          simpa [rowResult, h] using hlimit
        simp [processRows, h, hres, rowResult]
    | cons r done' ih =>
      have hr : (rowResult outcome r).status ≠ "LIMIT" :=
        hdone r (List.mem_cons_self r done')
      have ih' := ih (fun x hx => hdone x (List.mem_cons_of_mem r hx))
      cases h : outcome r with
      | cachedVal v =>
        simp [processRows, h, ih', rowResult]
      | jobRes res =>
        have hres : res.status ≠ "LIMIT" := by
          simpa [rowResult, h] using hr
        simp [processRows, h, hres, ih', rowResult]
  exact ⟨key, by rw [key], by rw [key]⟩

/-- Claim C2, counterexample to the claim as stated: in the 5-row
scenario the output rows are OK/OK/OK/LIMIT — four of them, not three —
and the pending file holds only row 5, not rows 4 and 5. -/
theorem claim_C2_counterexample :
    (processRows limitBatchOutcome limitBatchRows).1.map JobResult.status =
        ["OK", "OK", "OK", "LIMIT"] ∧
    (processRows limitBatchOutcome limitBatchRows).2 = [⟨6, "5".data, "e".data⟩] ∧
    ¬ ((processRows limitBatchOutcome limitBatchRows).1.length = 3 ∧
       (processRows limitBatchOutcome limitBatchRows).2 =
         [⟨5, "4".data, "d".data⟩, ⟨6, "5".data, "e".data⟩]) := by decide

/-- Claim C2, witness: the amended theorem applied to the concrete 5-row
batch. -/
theorem claim_C2_witness :
    processRows limitBatchOutcome
        ([⟨2, "1".data, "a".data⟩, ⟨3, "2".data, "b".data⟩, ⟨4, "3".data, "c".data⟩] ++
          ⟨5, "4".data, "d".data⟩ :: [⟨6, "5".data, "e".data⟩]) =
      ([⟨2, "1".data, "a".data⟩, ⟨3, "2".data, "b".data⟩,
          ⟨4, "3".data, "c".data⟩].map (rowResult limitBatchOutcome) ++
        [rowResult limitBatchOutcome ⟨5, "4".data, "d".data⟩],
       [⟨6, "5".data, "e".data⟩]) :=
  (claim_C2 limitBatchOutcome
      [⟨2, "1".data, "a".data⟩, ⟨3, "2".data, "b".data⟩, ⟨4, "3".data, "c".data⟩]
      ⟨5, "4".data, "d".data⟩ [⟨6, "5".data, "e".data⟩]
      (by decide) (by decide)).1

/-! ## Control location (C8) -/

/-- The spec-style locator *with the source's skip of missing and empty
button texts*: earliest exact normalized match in row-major order, else
earliest normalized containment, over the skipped enumeration. -/
def specLocateControlSkipEmpty (grid : List (List (Option (List Char))))
    (target : List Char) : Option (ℕ × ℕ) :=
  let want := normText target
  match firstHit (fun bt => normText bt == want) (enumGrid 0 grid) with
  | some ij => some ij
  | Option.none => firstHit (fun bt => substrB want (normText bt)) (enumGrid 0 grid)

theorem firstHit_enumRow_append (p : List Char → Bool) :
    ∀ (row : List (Option (List Char))) (i j : ℕ)
      (ls : List ((ℕ × ℕ) × List Char)),
      firstHit p (enumGrid.enumRow i j row ++ ls) =
        (match rowPass p j row with
         | some j' => some (i, j')
         | Option.none => firstHit p ls) := by
  intro row
  induction row with
  | nil => intro i j ls; rfl
  | cons b bs ih =>
    intro i j ls
    cases b with
    | none => simpa [enumGrid.enumRow, rowPass] using ih i (j + 1) ls
    | some t =>
      by_cases hemp : t.isEmpty
      · simpa [enumGrid.enumRow, rowPass, hemp] using ih i (j + 1) ls
      · cases hp : p t with
        | true => simp [enumGrid.enumRow, rowPass, hemp, firstHit, hp]
        | false =>
          simpa [enumGrid.enumRow, rowPass, hemp, firstHit, hp] using ih i (j + 1) ls

theorem gridPass_eq_firstHit (p : List Char → Bool) :
    ∀ (g : List (List (Option (List Char)))) (i : ℕ),
      gridPass p i g = firstHit p (enumGrid i g) := by
  intro g
  induction g with
  | nil => intro i; rfl
  | cons row rows ih =>
    intro i
    have h := firstHit_enumRow_append p row i 0 (enumGrid (i + 1) rows)
    simp only [enumGrid] at h ⊢
    rw [gridPass, h]
    cases rowPass p 0 row with
    | none => simpa using ih (i + 1)
    | some j => rfl

/-- Claim C8 (amended): `find_button_coords_by_text` normalizes the label
and each *present, non-empty* button text by whitespace-collapse plus
case-fold and returns the row-major-earliest exact normalized match, else
the row-major-earliest normalized containment, else nothing — buttons
whose text is missing or empty are skipped before matching (the claim as
stated, which matches empty texts too, fails; see the counterexample). -/
theorem claim_C8 (grid : List (List (Option (List Char)))) (target : List Char) :
    findButtonCoordsByText grid target = specLocateControlSkipEmpty grid target := by
  cases grid with
  | nil => rfl
  | cons row rows =>
    simp only [findButtonCoordsByText, specLocateControlSkipEmpty, List.isEmpty_cons,
      Bool.false_eq_true, if_false, gridPass_eq_firstHit]

/-- Claim C8, counterexample to the claim as stated: a single button whose
text is the empty string, with the empty requested label. Both normalize
to the empty string, so the claim's earliest exact match is `(0, 0)`, but
the source skips falsy texts (`if not bt: continue`) and reports nothing. -/
theorem claim_C8_counterexample :
    findButtonCoordsByText [[some []]] [] = Option.none ∧
    specLocateControl [[some []]] [] = some (0, 0) ∧
    findButtonCoordsByText [[some []]] [] ≠ specLocateControl [[some []]] [] := by
  decide

/-! ## Per-user quota (C7) -/

/-- On a sorted deque (which the monotonic clock guarantees), the
front-only `popleft` loop drops exactly the timestamps older than
`now − 3600`. -/
theorem quotaTrim_eq_filter (now : ℚ) :
    ∀ q : List ℚ, q.Sorted (· ≤ ·) →
      quotaTrim now q = q.filter (fun t => decide (now - t ≤ 3600)) := by
  intro q
  induction q with
  | nil => intro _; rfl
  | cons t ts ih =>
    intro hs
    by_cases h : 3600 < now - t
    · have hd : decide (now - t ≤ 3600) = false := by
        simp [not_le.mpr h]
      rw [quotaTrim, if_pos h, List.filter_cons, hd]
      simpa using ih (List.sorted_cons.mp hs).2
    · have hle : now - t ≤ 3600 := not_lt.mp h
      have hft : decide (now - t ≤ 3600) = true := by simpa using hle
      have hall : ∀ x ∈ ts, decide (now - x ≤ 3600) = true := by
        intro x hx
        have htx : t ≤ x := (List.sorted_cons.mp hs).1 x hx
        simp only [decide_eq_true_eq]
        linarith
      rw [quotaTrim, if_neg h, List.filter_cons, hft, if_pos rfl,
        List.filter_eq_self.mpr hall]

/-- Invariant of the `allow` loop for one user: provided the deque is
exactly the previously admitted times still within the closed 3600-second
window of the last clock value, and every 3600-second window so far holds
at most `quota` admissions, the same window bound holds after any further
non-decreasing schedule of calls. -/
theorem allowRun_window_le (quota : ℕ) :
    ∀ (sched A q : List ℚ) (n : ℚ),
      (∀ a ∈ A, a ≤ n) →
      A.Sorted (· ≤ ·) →
      q = A.filter (fun a => decide (n - a ≤ 3600)) →
      (∀ u, winCount u A ≤ quota) →
      List.Chain' (· ≤ ·) (n :: sched) →
      ∀ t, winCount t (A ++ (allowRun quota q sched).1) ≤ quota := by
  intro sched
  induction sched with
  | nil =>
    intro A q n _ _ _ hw _ t
    simpa [allowRun] using hw t
  | cons now rest ih =>
    intro A q n hA hs hq hw hchain t
    have hnow : n ≤ now := (List.chain'_cons.mp hchain).1
    have hchain' : List.Chain' (· ≤ ·) (now :: rest) := (List.chain'_cons.mp hchain).2
    have hqsorted : q.Sorted (· ≤ ·) := by rw [hq]; exact hs.filter _
    have htrim : quotaTrim now q = A.filter (fun a => decide (now - a ≤ 3600)) := by
      rw [quotaTrim_eq_filter now q hqsorted, hq, List.filter_filter]
      apply List.filter_congr
      intro a _
      by_cases h2 : now - a ≤ 3600
      · have h1 : n - a ≤ 3600 := by linarith
        simp [h1, h2]
      · simp [h2]
    by_cases hfull : quota ≤ (quotaTrim now q).length
    · have hrun : (allowRun quota q (now :: rest)).1 =
          (allowRun quota (quotaTrim now q) rest).1 := by
        simp [allowRun, allowStep, hfull]
      rw [hrun]
      exact ih A (quotaTrim now q) now (fun a ha => le_trans (hA a ha) hnow)
        hs htrim hw hchain' t
    · have hlt : (quotaTrim now q).length < quota := not_le.mp hfull
      have hrun : (allowRun quota q (now :: rest)).1 =
          now :: (allowRun quota (quotaTrim now q ++ [now]) rest).1 := by
        simp [allowRun, allowStep, hfull]
      rw [hrun]
      have hA' : ∀ a ∈ A ++ [now], a ≤ now := by
        intro a ha
        rcases List.mem_append.mp ha with h | h
        · exact le_trans (hA a h) hnow
        · rw [List.mem_singleton.mp h]
      have hs' : (A ++ [now]).Sorted (· ≤ ·) := by
        refine List.pairwise_append.mpr ⟨hs, List.pairwise_singleton _ _, ?_⟩
        intro a ha b hb
        rw [List.mem_singleton.mp hb]
        exact le_trans (hA a ha) hnow
      have hq' : quotaTrim now q ++ [now] =
          (A ++ [now]).filter (fun a => decide (now - a ≤ 3600)) := by
        rw [List.filter_append, htrim]
        congr 1
        simp
      have hcount : (A.filter (fun a => decide (now - a ≤ 3600))).length < quota := by
        rw [← htrim]; exact hlt
      have hw' : ∀ u, winCount u (A ++ [now]) ≤ quota := by
        intro u
        rw [winCount, List.filter_append, List.length_append]
        by_cases hin : u ≤ now ∧ now ≤ u + 3600
        · have hsub : (A.filter (fun a => decide (u ≤ a ∧ a ≤ u + 3600))).length ≤
              (A.filter (fun a => decide (now - a ≤ 3600))).length := by
            apply List.Sublist.length_le
            apply List.monotone_filter_right
            intro a ha
            simp only [decide_eq_true_eq] at ha ⊢
            linarith [ha.1, ha.2, hin.2]
          have hone : (([now] : List ℚ).filter
              (fun a => decide (u ≤ a ∧ a ≤ u + 3600))).length ≤ 1 := by
            rw [List.filter_singleton]
            cases decide (u ≤ now ∧ now ≤ u + 3600) <;> simp
          have hwc : winCount u A ≤ quota := hw u
          rw [winCount] at hwc
          omega
        · have hzero : (([now] : List ℚ).filter
              (fun a => decide (u ≤ a ∧ a ≤ u + 3600))).length = 0 := by
            have hd : decide (u ≤ now ∧ now ≤ u + 3600) = false := by
              simp only [decide_eq_false_iff_not]
              exact hin
            rw [List.filter_singleton, hd]
            rfl
          rw [hzero]
          have hwc := hw u
          rw [winCount] at hwc
          omega
      have hgoal := ih (A ++ [now]) (quotaTrim now q ++ [now]) now hA' hs' hq' hw' hchain' t
      rw [List.append_assoc, List.singleton_append] at hgoal
      exact hgoal

/-- Claim C7: `allow` first trims (on the sorted deque, exactly the
timestamps older than `now − 3600` are dropped); a full window rejects
with `max(1, 3600 − (now − oldest))` — at least 1 — and admits nothing; an
open window appends `now` and returns `(true, 0)`; and along any
non-decreasing schedule of calls the number of admitted requests in any
closed rolling 3600-second window never exceeds `quota`. -/
theorem claim_C7 (quota : ℕ) (sched : List ℚ)
    (hs : List.Chain' (· ≤ ·) sched) :
    (∀ (q : List ℚ) (now : ℚ),
      ((allowStep quota q now).2.1 = true ↔ (quotaTrim now q).length < quota)) ∧
    (∀ (q : List ℚ) (now : ℚ), q.Sorted (· ≤ ·) →
      quotaTrim now q = q.filter (fun t => decide (now - t ≤ 3600))) ∧
    (∀ (q : List ℚ) (now : ℚ), quota ≤ (quotaTrim now q).length →
      allowStep quota q now =
        (quotaTrim now q, false, max 1 (3600 - (now - (quotaTrim now q).headD 0))) ∧
      1 ≤ (allowStep quota q now).2.2) ∧
    (∀ (q : List ℚ) (now : ℚ), (quotaTrim now q).length < quota →
      allowStep quota q now = (quotaTrim now q ++ [now], true, 0)) ∧
    (∀ t, winCount t (allowTrace quota sched) ≤ quota) := by
  refine ⟨?_, ?_, ?_, ?_, ?_⟩
  · intro q now
    by_cases h : quota ≤ (quotaTrim now q).length
    · simp [allowStep, h, not_lt.mpr h]
    · simp [allowStep, h, not_le.mp h]
  · intro q now hsq
    exact quotaTrim_eq_filter now q hsq
  · intro q now h
    refine ⟨by simp [allowStep, h], ?_⟩
    simp only [allowStep, if_pos h]
    exact le_max_left _ _
  · intro q now h
    simp [allowStep, not_le.mpr h]
  · intro t
    cases sched with
    | nil => simp [allowTrace, allowRun, winCount]
    | cons s rest =>
      have hchain : List.Chain' (· ≤ ·) (s :: s :: rest) :=
        List.chain'_cons.mpr ⟨le_refl s, hs⟩
      have h := allowRun_window_le quota (s :: rest) [] [] s
        (by intro a ha; cases ha) (List.sorted_nil) rfl
        (by intro u; simp [winCount]) hchain t
      simpa [allowTrace] using h

/-- Claim C7, witness: the window bound of the theorem applied to a user
calling at monotonic times `0, 10, 20` with `quota = 2`, window `[0, 3600]`. -/
theorem claim_C7_witness :
    winCount 0 (allowTrace 2 [0, 10, 20]) ≤ 2 :=
  (claim_C7 2 [0, 10, 20]
    (by norm_num [List.chain'_cons, List.chain'_singleton])).2.2.2.2 0

/-! ## Burst classification (C1) -/

/-- Claim C1 (amended): in a collected burst with no limit-exhausted
message and at least one summary-marker message, the classifier settles on
the *last* marker message and returns status OK precisely when that text
is not a not-found reply and at least one of the parsed phone/email fields
is present — not regardless of the parsed fields: when both are absent the
status is ERROR (and a not-found summary text gives NOT_FOUND). -/
theorem claim_C1 (msgs : List (List Char)) (inn fio : List Char)
    (hlim : ∀ m ∈ msgs, isLimitExhausted (pyStrip m) = false)
    (hsum : ∃ m ∈ msgs,
      (isPrefixB summaryMarker (pyStrip m) || substrB summaryMarker (pyStrip m)) = true) :
    ∃ m', findSummaryMessage msgs = some m' ∧
      ((classifyCollected msgs inn fio).status = "OK" ↔
        (isNotFoundMessage (pyStrip m') = false ∧
          (pyStrip (orFalsy (parseSummaryFields (pyStrip m')).2.1 []) ≠ [] ∨
           pyStrip (orFalsy (parseSummaryFields (pyStrip m')).2.2 []) ≠ []))) := by
  have hfl : findLimitMessage msgs = Option.none := by
    rw [findLimitMessage, List.find?_eq_none]
    intro m hm
    rw [List.mem_reverse] at hm
    simp [hlim m hm]
  cases hfs : findSummaryMessage msgs with
  | none =>
    exfalso
    rw [findSummaryMessage, List.find?_eq_none] at hfs
    obtain ⟨m, hm, hp⟩ := hsum
    exact hfs m (List.mem_reverse.mpr hm) hp
  | some m' =>
    refine ⟨m', rfl, ?_⟩
    simp only [classifyCollected, hfl, hfs]
    by_cases hnf : isNotFoundMessage (pyStrip m') = true
    · simp only [hnf, if_true]
      constructor
      · intro h; exact absurd h (by decide)
      · rintro ⟨hfalse, -⟩; exact Bool.noConfusion hfalse
    · rw [Bool.not_eq_true] at hnf
      simp only [hnf, Bool.false_eq_true, if_false]
      refine ⟨fun hst => ⟨by simp, ?_⟩, fun hrhs => ?_⟩
      · by_contra hboth
        push_neg at hboth
        have hp : (pyStrip (orFalsy (parseSummaryFields (pyStrip m')).2.1 [])).isEmpty = true := by
          simp [hboth.1]
        have he : (pyStrip (orFalsy (parseSummaryFields (pyStrip m')).2.2 [])).isEmpty = true := by
          simp [hboth.2]
        rw [if_neg (by simp [hp, he])] at hst
        exact absurd hst (by decide)
      · rcases hrhs.2 with h | h
        · rw [if_pos (by simp [h])]
        · rw [if_pos (by simp [h])]

/-- Claim C1, counterexample to the claim as stated: a burst consisting of
the bare marker line `"📄 Краткая сводка"` has no limit message and does
contain the marker, yet the classifier returns ERROR, not OK, because
neither a phone nor an email field parses from it. -/
theorem claim_C1_counterexample :
    (∀ m ∈ [("📄 Краткая сводка".data : List Char)],
      isLimitExhausted (pyStrip m) = false) ∧
    (∃ m ∈ [("📄 Краткая сводка".data : List Char)],
      (isPrefixB summaryMarker (pyStrip m) || substrB summaryMarker (pyStrip m)) = true) ∧
    (classifyCollected ["📄 Краткая сводка".data] "1".data "Иванов".data).status ≠ "OK" ∧
    (classifyCollected ["📄 Краткая сводка".data] "1".data "Иванов".data).status = "ERROR" := by
  refine ⟨by decide, by decide, by decide, by decide⟩

/-- Claim C1, witness: the amended theorem applied to a burst holding one
summary message that carries a phone line. -/
theorem claim_C1_witness :
    (classifyCollected ["📄 Краткая сводка\nТелефон: +7 900".data]
        "1".data "Иванов".data).status = "OK" := by
  obtain ⟨m', hm', hiff⟩ :=
    claim_C1 ["📄 Краткая сводка\nТелефон: +7 900".data] "1".data "Иванов".data
      (by decide) (by decide)
  have hval : findSummaryMessage ["📄 Краткая сводка\nТелефон: +7 900".data] =
      some ("📄 Краткая сводка\nТелефон: +7 900".data) := by decide
  rw [hval] at hm'
  have hm2 := (Option.some.inj hm').symm
  subst hm2
  exact hiff.mpr (by decide)

/-! ## Safe-projection idempotence (C10) -/

/-- Shape of an optional extracted value under which re-extraction is
exact: absent, or starting with a non-whitespace character. -/
def headNonWsB : Option (List Char) → Bool
  | Option.none => true
  | some [] => false
  | some (c :: _) => !isPySpace c

theorem dropWhile_head_not (p : Char → Bool) :
    ∀ (l : List Char) (c : Char) (cs : List Char),
      l.dropWhile p = c :: cs → p c = false := by
  intro l
  induction l with
  | nil => intro c cs h; cases h
  | cons a as ih =>
    intro c cs h
    rw [List.dropWhile_cons] at h
    by_cases hp : p a = true
    · rw [if_pos hp] at h; exact ih c cs h
    · rw [if_neg hp] at h
      injection h with h1 _
      subst h1
      simpa using hp

theorem dropWhile_idem (p : Char → Bool) (l : List Char) :
    List.dropWhile p (List.dropWhile p l) = List.dropWhile p l := by
  cases h : List.dropWhile p l with
  | nil => rfl
  | cons c cs =>
    rw [List.dropWhile_cons, if_neg (by simp [dropWhile_head_not p l c cs h])]

theorem pyStrip_head (s : List Char) (c : Char) (cs : List Char)
    (h : pyStrip s = c :: cs) : isPySpace c = false := by
  rw [pyStrip] at h
  have h1 : ((List.dropWhile isPySpace
      (List.dropWhile isPySpace s).reverse).reverse).head? = some c := by
    rw [h]; rfl
  rw [List.head?_reverse] at h1
  obtain ⟨t, ht⟩ :=
    List.dropWhile_suffix (l := (List.dropWhile isPySpace s).reverse) isPySpace
  have h2 : ((List.dropWhile isPySpace s).reverse).getLast? = some c := by
    rw [← ht, List.getLast?_append, h1]; rfl
  rw [List.getLast?_reverse] at h2
  cases hd : List.dropWhile isPySpace s with
  | nil => rw [hd] at h2; cases h2
  | cons d ds =>
    rw [hd] at h2
    injection h2 with h2
    subst h2
    exact dropWhile_head_not isPySpace s d ds hd

theorem pyStrip_idem (s : List Char) : pyStrip (pyStrip s) = pyStrip s := by
  cases h : pyStrip s with
  | nil => rfl
  | cons c cs =>
    have hc : isPySpace c = false := pyStrip_head s c cs h
    have hfront : List.dropWhile isPySpace (c :: cs) = c :: cs := by
      rw [List.dropWhile_cons, if_neg (by simp [hc])]
    have hrev : (c :: cs).reverse =
        List.dropWhile isPySpace ((List.dropWhile isPySpace s).reverse) := by
      rw [← h, pyStrip, List.reverse_reverse]
    rw [pyStrip, hfront, hrev, dropWhile_idem, ← hrev, List.reverse_reverse]

theorem mem_pyStrip (s : List Char) (c : Char) (h : c ∈ pyStrip s) : c ∈ s := by
  rw [pyStrip, List.mem_reverse] at h
  have h2 := List.Sublist.mem h (List.dropWhile_sublist _)
  rw [List.mem_reverse] at h2
  exact List.Sublist.mem h2 (List.dropWhile_sublist _)

theorem takeWhile_append_all (p : Char → Bool) :
    ∀ (xs ys : List Char), (∀ x ∈ xs, p x = true) →
      List.takeWhile p (xs ++ ys) = xs ++ List.takeWhile p ys := by
  intro xs
  induction xs with
  | nil => intro ys _; rfl
  | cons x xs ih =>
    intro ys h
    rw [List.cons_append, List.takeWhile_cons, if_pos (h x (List.mem_cons_self x xs)),
      ih ys (fun a ha => h a (List.mem_cons_of_mem x ha)), List.cons_append]

theorem greedyK_some_okAt (s : List Char) :
    ∀ (k0 k : ℕ), greedyK s k0 = some k → okAt s k = true := by
  intro k0
  induction k0 with
  | zero =>
    intro k h
    rw [greedyK] at h
    by_cases ho : okAt s 0 = true
    · rw [if_pos ho] at h; injection h with h; subst h; exact ho
    · rw [if_neg ho] at h; cases h
  | succ k0 ih =>
    intro k h
    rw [greedyK] at h
    by_cases ho : okAt s (k0 + 1) = true
    · rw [if_pos ho] at h; injection h with h; subst h; exact ho
    · rw [if_neg ho] at h; exact ih k h

theorem matchTail_some (s g : List Char) (h : matchTail s = some g) :
    g ≠ [] ∧ ∀ c ∈ g, c ≠ '\n' := by
  rw [matchTail] at h
  cases hg : greedyK s (wsRunLen s) with
  | none => rw [hg] at h; cases h
  | some k =>
    rw [hg] at h
    injection h with h
    have hok := greedyK_some_okAt s _ k hg
    rw [okAt] at hok
    cases hd : s.drop k with
    | nil => rw [hd] at hok; cases hok
    | cons d ds =>
      rw [hd] at hok
      constructor
      · rw [← h, hd, List.takeWhile_cons, if_pos hok]
        simp
      · intro c hc
        rw [← h] at hc
        have hmem := List.mem_takeWhile_imp hc
        simpa using hmem

theorem reSearch_some (label : List Char) :
    ∀ (s : List Char) (st : Bool) (g : List Char),
      reSearch label st s = some g → g ≠ [] ∧ ∀ c ∈ g, c ≠ '\n' := by
  intro s
  induction s with
  | nil => intro st g h; cases h
  | cons c s' ih =>
    intro st g h
    rw [show reSearch label st (c :: s') =
        (match (if st && isPrefixB label (c :: s') then
                 matchTail ((c :: s').drop label.length)
               else Option.none) with
         | some g0 => some g0
         | Option.none => reSearch label (c == '\n') s') from rfl] at h
    cases hcond : (st && isPrefixB label (c :: s')) with
    | false =>
      rw [hcond] at h
      exact ih _ g h
    | true =>
      rw [hcond] at h
      cases hmt : matchTail ((c :: s').drop label.length) with
      | none =>
        rw [hmt] at h
        exact ih _ g h
      | some g0 =>
        rw [hmt] at h
        have hg : g0 = g := by
          have h' : some g0 = some g := h
          exact Option.some.inj h'
        subst hg
        exact matchTail_some _ g0 hmt

theorem reSearch_cons (label : List Char) (st : Bool) (c : Char) (s : List Char) :
    reSearch label st (c :: s) =
      match (if st && isPrefixB label (c :: s) then
               matchTail ((c :: s).drop label.length)
             else Option.none) with
      | some g => some g
      | Option.none => reSearch label (c == '\n') s := rfl

theorem reSearch_cons_neg (label : List Char) (st : Bool) (c : Char) (s : List Char)
    (h : (st && isPrefixB label (c :: s)) = false) :
    reSearch label st (c :: s) = reSearch label (c == '\n') s := by
  rw [reSearch_cons, h]
  rfl

theorem isPrefixB_head_ne (l0 c : Char) (lt s : List Char) (h : (l0 == c) = false) :
    isPrefixB (l0 :: lt) (c :: s) = false := by
  rw [isPrefixB, h, Bool.false_and]

theorem isPrefixB_append_self : ∀ (l m : List Char), isPrefixB l (l ++ m) = true := by
  intro l
  induction l with
  | nil => intro m; rfl
  | cons a as ih => intro m; rw [List.cons_append, isPrefixB, beq_self_eq_true, Bool.true_and, ih]

theorem reSearch_skipNoNl (label : List Char) :
    ∀ (xs ys : List Char), (∀ c ∈ xs, c ≠ '\n') →
      reSearch label false (xs ++ ys) = reSearch label false ys := by
  intro xs
  induction xs with
  | nil => intro ys _; rfl
  | cons c cs ih =>
    intro ys h
    rw [List.cons_append, reSearch_cons_neg _ _ _ _ (Bool.false_and _)]
    have hc : (c == '\n') = false :=
      beq_eq_false_iff_ne.mpr (h c (List.mem_cons_self c cs))
    rw [hc]
    exact ih ys (fun a ha => h a (List.mem_cons_of_mem c ha))

theorem reSearch_newline (l0 : Char) (lt rest : List Char) (st : Bool)
    (hl : (l0 == '\n') = false) :
    reSearch (l0 :: lt) st ('\n' :: rest) = reSearch (l0 :: lt) true rest := by
  rw [reSearch_cons_neg _ _ _ _ (by rw [isPrefixB_head_ne l0 '\n' lt rest hl, Bool.and_false])]
  norm_num

theorem reSearch_skip_line (l0 c0 : Char) (lt line rest : List Char) (st : Bool)
    (hne : (l0 == c0) = false)
    (hl : (l0 == '\n') = false)
    (hnl : ∀ x ∈ c0 :: line, x ≠ '\n') :
    reSearch (l0 :: lt) st ((c0 :: line) ++ '\n' :: rest) =
      reSearch (l0 :: lt) true rest := by
  rw [List.cons_append,
    reSearch_cons_neg _ _ _ _ (by rw [isPrefixB_head_ne l0 c0 lt _ hne, Bool.and_false]),
    beq_eq_false_iff_ne.mpr (hnl c0 (List.mem_cons_self c0 line)),
    reSearch_skipNoNl (l0 :: lt) line ('\n' :: rest)
      (fun a ha => hnl a (List.mem_cons_of_mem c0 ha))]
  exact reSearch_newline l0 lt rest false hl

theorem reSearch_skip_last (l0 c0 : Char) (lt line : List Char) (st : Bool)
    (hne : (l0 == c0) = false)
    (hnl : ∀ x ∈ c0 :: line, x ≠ '\n') :
    reSearch (l0 :: lt) st (c0 :: line) = Option.none := by
  rw [reSearch_cons_neg _ _ _ _ (by rw [isPrefixB_head_ne l0 c0 lt _ hne, Bool.and_false]),
    beq_eq_false_iff_ne.mpr (hnl c0 (List.mem_cons_self c0 line))]
  have h := reSearch_skipNoNl (l0 :: lt) line []
    (fun a ha => hnl a (List.mem_cons_of_mem c0 ha))
  rw [List.append_nil] at h
  rw [h]
  rfl

theorem matchTail_value (c : Char) (cs rest : List Char)
    (hc : isPySpace c = false)
    (hnl : ∀ x ∈ c :: cs, x ≠ '\n')
    (hrest : rest = [] ∨ ∃ r, rest = '\n' :: r) :
    matchTail (' ' :: ((c :: cs) ++ rest)) = some (c :: cs) := by
  have hok : okAt (' ' :: ((c :: cs) ++ rest)) 1 = true := by
    rw [okAt]
    have hd : List.drop 1 (' ' :: ((c :: cs) ++ rest)) = c :: (cs ++ rest) := by
      simp
    rw [hd]
    simpa using hnl c (List.mem_cons_self c cs)
  have hwr : wsRunLen (' ' :: ((c :: cs) ++ rest)) = 1 := by
    rw [wsRunLen, List.takeWhile_cons, if_pos (by decide), List.cons_append,
      List.takeWhile_cons, if_neg (by simp [hc])]
    rfl
  have hall : ∀ x ∈ c :: cs, (x != '\n') = true := by
    intro x hx
    simpa using hnl x hx
  have hg : greedyK (' ' :: ((c :: cs) ++ rest)) 1 = some 1 := by
    have h1 : greedyK (' ' :: ((c :: cs) ++ rest)) (0 + 1) =
        if okAt (' ' :: ((c :: cs) ++ rest)) (0 + 1) then some (0 + 1)
        else greedyK (' ' :: ((c :: cs) ++ rest)) 0 := rfl
    rw [Nat.zero_add] at h1
    rw [h1, if_pos hok]
  rw [matchTail, hwr, hg]
  show some (List.takeWhile (fun x => x != '\n')
      (List.drop 1 (' ' :: ((c :: cs) ++ rest)))) = some (c :: cs)
  have hdrop : List.drop 1 (' ' :: ((c :: cs) ++ rest)) = (c :: cs) ++ rest := by
    simp
  rw [hdrop, takeWhile_append_all _ (c :: cs) rest hall]
  rcases hrest with h | ⟨r, h⟩
  · subst h; simp
  · subst h
    rw [List.takeWhile_cons, if_neg (by decide)]
    rw [List.append_nil]

theorem reSearch_match (label v rest : List Char)
    (hlabel : label ≠ [])
    (hv : ∃ c cs, v = c :: cs ∧ isPySpace c = false)
    (hnl : ∀ x ∈ v, x ≠ '\n')
    (hrest : rest = [] ∨ ∃ r, rest = '\n' :: r) :
    reSearch label true (label ++ ' ' :: (v ++ rest)) = some v := by
  obtain ⟨c, cs, hvcc, hc⟩ := hv
  cases label with
  | nil => exact absurd rfl hlabel
  | cons l0 lt =>
    rw [List.cons_append, reSearch_cons]
    have hpfx : isPrefixB (l0 :: lt) ((l0 :: lt) ++ ' ' :: (v ++ rest)) = true :=
      isPrefixB_append_self (l0 :: lt) (' ' :: (v ++ rest))
    rw [List.cons_append] at hpfx
    rw [hpfx, Bool.true_and, if_pos rfl]
    have hdrop : List.drop (l0 :: lt).length (l0 :: (lt ++ (' ' :: (v ++ rest)))) =
        ' ' :: (v ++ rest) := by
      have h0 := List.drop_left (l0 :: lt) (' ' :: (v ++ rest))
      rw [List.cons_append] at h0
      exact h0
    rw [hdrop]
    subst hvcc
    rw [matchTail_value c cs rest hc hnl hrest]

theorem fioLabel_eq : fioLabel = 'Ф' :: "ИО:".data := by decide

theorem phoneLabel_eq : phoneLabel = 'Т' :: "елефон:".data := by decide

theorem emailLabel_eq : emailLabel = 'E' :: "mail:".data := by decide

theorem summaryMarker_shape (l0 : Char) (h : (l0 == '📄') = false) :
    ∃ c0 lineT, summaryMarker = c0 :: lineT ∧ (l0 == c0) = false ∧
      ∀ x ∈ summaryMarker, x ≠ '\n' :=
  ⟨'📄', " Краткая сводка".data, by decide, h, by decide⟩

/-- Shape of an extracted optional value as the amended idempotence claim
needs it: absent, or a non-empty value with non-whitespace head and no
newline. -/
def GoodOpt (o : Option (List Char)) : Prop :=
  o = Option.none ∨ ∃ c cs, o = some (c :: cs) ∧ isPySpace c = false ∧
    ∀ x ∈ c :: cs, x ≠ '\n'

theorem GoodOpt_noNl {o : Option (List Char)} {v : List Char}
    (hg : GoodOpt o) (hv : o = some v) : ∀ x ∈ v, x ≠ '\n' := by
  rcases hg with h | ⟨c, cs, he, _, hn⟩
  · rw [h] at hv; cases hv
  · rw [he] at hv
    injection hv with hv
    subst hv
    exact hn

theorem projLine_shape (l0 d0 : Char) (dt v : List Char)
    (hne : (l0 == d0) = false) (hd0 : d0 ≠ '\n')
    (hdt : ∀ x ∈ dt, x ≠ '\n') (hv : ∀ x ∈ v, x ≠ '\n') :
    ∃ c0 lineT, (d0 :: dt) ++ ' ' :: v = c0 :: lineT ∧ (l0 == c0) = false ∧
      ∀ x ∈ (d0 :: dt) ++ ' ' :: v, x ≠ '\n' := by
  refine ⟨d0, dt ++ ' ' :: v, List.cons_append d0 dt (' ' :: v), hne, ?_⟩
  intro x hx
  rcases List.mem_append.mp hx with h | h
  · rcases List.mem_cons.mp h with h1 | h1
    · subst h1; exact hd0
    · exact hdt x h1
  · rcases List.mem_cons.mp h with h1 | h1
    · subst h1; decide
    · exact hv x h1

theorem joinLines_cons_ne (a : List Char) (l : List (List Char)) (h : l ≠ []) :
    joinLines (a :: l) = a ++ '\n' :: joinLines l := by
  cases l with
  | nil => exact absurd rfl h
  | cons b bs => rfl

theorem reSearch_skip_join (l0 : Char) (lt : List Char) (hl : (l0 == '\n') = false) :
    ∀ ls : List (List Char),
      (∀ line ∈ ls, ∃ c0 lineT, line = c0 :: lineT ∧ (l0 == c0) = false ∧
        ∀ x ∈ line, x ≠ '\n') →
      reSearch (l0 :: lt) true (joinLines ls) = Option.none := by
  intro ls
  induction ls with
  | nil => intro _; rfl
  | cons line ls' ih =>
    intro h
    obtain ⟨c0, lineT, hline, hne, hnl⟩ := h line (List.mem_cons_self line ls')
    cases ls' with
    | nil =>
      show reSearch (l0 :: lt) true line = Option.none
      rw [hline]
      exact reSearch_skip_last l0 c0 lt lineT true hne (hline ▸ hnl)
    | cons line2 ls'' =>
      rw [joinLines_cons_ne line (line2 :: ls'') (by simp), hline,
        reSearch_skip_line l0 c0 lt lineT (joinLines (line2 :: ls'')) true hne hl
          (hline ▸ hnl)]
      exact ih (fun x hx => h x (List.mem_cons_of_mem line hx))

theorem reSearch_match_join (l0 : Char) (lt : List Char) (hl : (l0 == '\n') = false) :
    ∀ (ls : List (List Char)) (v : List Char) (ms : List (List Char)),
      (∀ line ∈ ls, ∃ c0 lineT, line = c0 :: lineT ∧ (l0 == c0) = false ∧
        ∀ x ∈ line, x ≠ '\n') →
      (∃ c cs, v = c :: cs ∧ isPySpace c = false) →
      (∀ x ∈ v, x ≠ '\n') →
      reSearch (l0 :: lt) true (joinLines (ls ++ ((l0 :: lt) ++ ' ' :: v) :: ms)) =
        some v := by
  intro ls
  induction ls with
  | nil =>
    intro v ms _ hv hnl
    rw [List.nil_append]
    cases ms with
    | nil =>
      show reSearch (l0 :: lt) true ((l0 :: lt) ++ ' ' :: v) = some v
      have h := reSearch_match (l0 :: lt) v [] (by simp) hv hnl (Or.inl rfl)
      rw [List.append_nil] at h
      exact h
    | cons m2 ms' =>
      rw [joinLines_cons_ne _ (m2 :: ms') (by simp), List.append_assoc,
        List.cons_append]
      exact reSearch_match (l0 :: lt) v ('\n' :: joinLines (m2 :: ms'))
        (by simp) hv hnl (Or.inr ⟨joinLines (m2 :: ms'), rfl⟩)
  | cons line ls' ih =>
    intro v ms h hv hnl
    obtain ⟨c0, lineT, hline, hne, hnlline⟩ := h line (List.mem_cons_self line ls')
    rw [List.cons_append,
      joinLines_cons_ne line (ls' ++ ((l0 :: lt) ++ ' ' :: v) :: ms) (by simp), hline,
      reSearch_skip_line l0 c0 lt lineT _ true hne hl (hline ▸ hnlline)]
    exact ih v ms (fun x hx => h x (List.mem_cons_of_mem line hx)) hv hnl

theorem mem_projLine (lab : List Char) (o : Option (List Char)) (line : List Char)
    (h : line ∈ projLine lab o) : ∃ v, o = some v ∧ line = lab ++ ' ' :: v := by
  cases o with
  | none => cases h
  | some v =>
    rw [projLine] at h
    by_cases hemp : v.isEmpty = true
    · rw [if_pos hemp] at h; cases h
    · rw [if_neg hemp] at h
      rw [List.mem_singleton] at h
      exact ⟨v, rfl, h⟩

theorem reSearch_out_fio (f p e : Option (List Char))
    (hf : GoodOpt f) (hp : GoodOpt p) (he : GoodOpt e) :
    reSearch fioLabel true (joinLines (summaryMarker :: projectionLines f p e)) = f := by
  have hshape : ∀ line ∈ projLine phoneLabel p ++ projLine emailLabel e,
      ∃ c0 lineT, line = c0 :: lineT ∧ (('Ф' : Char) == c0) = false ∧
        ∀ x ∈ line, x ≠ '\n' := by
    intro line hline
    rcases List.mem_append.mp hline with h | h
    · obtain ⟨v, hv, hl⟩ := mem_projLine _ _ _ h
      subst hl
      rw [phoneLabel_eq]
      exact projLine_shape 'Ф' 'Т' _ v (by decide) (by decide) (by decide)
        (GoodOpt_noNl hp hv)
    · obtain ⟨v, hv, hl⟩ := mem_projLine _ _ _ h
      subst hl
      rw [emailLabel_eq]
      exact projLine_shape 'Ф' 'E' _ v (by decide) (by decide) (by decide)
        (GoodOpt_noNl he hv)
  rcases hf with hf0 | ⟨c, cs, hfe, hc, hnl⟩
  · subst hf0
    rw [fioLabel_eq]
    apply reSearch_skip_join 'Ф' _ (by decide)
    intro line hline
    rcases List.mem_cons.mp hline with h | h
    · subst h
      exact summaryMarker_shape 'Ф' (by decide)
    · have hB : projLine fioLabel Option.none = [] := rfl
      rw [projectionLines, hB, List.nil_append] at h
      exact hshape line h
  · rw [hfe]
    have hlines : projectionLines (some (c :: cs)) p e =
        (fioLabel ++ ' ' :: (c :: cs)) ::
          (projLine phoneLabel p ++ projLine emailLabel e) := rfl
    rw [hlines, fioLabel_eq]
    exact reSearch_match_join 'Ф' _ (by decide) [summaryMarker] (c :: cs) _
      (by
        intro line hline
        rw [List.mem_singleton] at hline
        subst hline
        exact summaryMarker_shape 'Ф' (by decide))
      ⟨c, cs, rfl, hc⟩ hnl

theorem reSearch_out_phone (f p e : Option (List Char))
    (hf : GoodOpt f) (hp : GoodOpt p) (he : GoodOpt e) :
    reSearch phoneLabel true (joinLines (summaryMarker :: projectionLines f p e)) = p := by
  rcases hp with hp0 | ⟨c, cs, hpe, hc, hnl⟩
  · subst hp0
    rw [phoneLabel_eq]
    apply reSearch_skip_join 'Т' _ (by decide)
    intro line hline
    rcases List.mem_cons.mp hline with h | h
    · subst h
      exact summaryMarker_shape 'Т' (by decide)
    · have hB : projLine phoneLabel Option.none = [] := rfl
      rw [projectionLines, hB, List.append_nil] at h
      rcases List.mem_append.mp h with h1 | h1
      · obtain ⟨v, hv, hl⟩ := mem_projLine _ _ _ h1
        subst hl
        rw [fioLabel_eq]
        exact projLine_shape 'Т' 'Ф' _ v (by decide) (by decide) (by decide)
          (GoodOpt_noNl hf hv)
      · obtain ⟨v, hv, hl⟩ := mem_projLine _ _ _ h1
        subst hl
        rw [emailLabel_eq]
        exact projLine_shape 'Т' 'E' _ v (by decide) (by decide) (by decide)
          (GoodOpt_noNl he hv)
  · rw [hpe]
    have hlines : projectionLines f (some (c :: cs)) e =
        projLine fioLabel f ++
          ((phoneLabel ++ ' ' :: (c :: cs)) :: projLine emailLabel e) := by
      rw [projectionLines, List.append_assoc]
      rfl
    rw [hlines, phoneLabel_eq, ← List.cons_append]
    exact reSearch_match_join 'Т' _ (by decide)
      (summaryMarker :: projLine fioLabel f) (c :: cs) (projLine emailLabel e)
      (by
        intro line hline
        rcases List.mem_cons.mp hline with h | h
        · subst h
          exact summaryMarker_shape 'Т' (by decide)
        · obtain ⟨v, hv, hl⟩ := mem_projLine _ _ _ h
          subst hl
          rw [fioLabel_eq]
          exact projLine_shape 'Т' 'Ф' _ v (by decide) (by decide) (by decide)
            (GoodOpt_noNl hf hv))
      ⟨c, cs, rfl, hc⟩ hnl

theorem reSearch_out_email (f p e : Option (List Char))
    (hf : GoodOpt f) (hp : GoodOpt p) (he : GoodOpt e) :
    reSearch emailLabel true (joinLines (summaryMarker :: projectionLines f p e)) = e := by
  rcases he with he0 | ⟨c, cs, hee, hc, hnl⟩
  · subst he0
    rw [emailLabel_eq]
    apply reSearch_skip_join 'E' _ (by decide)
    intro line hline
    rcases List.mem_cons.mp hline with h | h
    · subst h
      exact summaryMarker_shape 'E' (by decide)
    · have hC : projLine emailLabel Option.none = [] := rfl
      rw [projectionLines, hC, List.append_nil] at h
      rcases List.mem_append.mp h with h1 | h1
      · obtain ⟨v, hv, hl⟩ := mem_projLine _ _ _ h1
        subst hl
        rw [fioLabel_eq]
        exact projLine_shape 'E' 'Ф' _ v (by decide) (by decide) (by decide)
          (GoodOpt_noNl hf hv)
      · obtain ⟨v, hv, hl⟩ := mem_projLine _ _ _ h1
        subst hl
        rw [phoneLabel_eq]
        exact projLine_shape 'E' 'Т' _ v (by decide) (by decide) (by decide)
          (GoodOpt_noNl hp hv)
  · rw [hee]
    have hlines : projectionLines f p (some (c :: cs)) =
        (projLine fioLabel f ++ projLine phoneLabel p) ++
          [emailLabel ++ ' ' :: (c :: cs)] := rfl
    rw [hlines, emailLabel_eq, ← List.cons_append]
    exact reSearch_match_join 'E' _ (by decide)
      (summaryMarker :: (projLine fioLabel f ++ projLine phoneLabel p)) (c :: cs) []
      (by
        intro line hline
        rcases List.mem_cons.mp hline with h | h
        · subst h
          exact summaryMarker_shape 'E' (by decide)
        · rcases List.mem_append.mp h with h1 | h1
          · obtain ⟨v, hv, hl⟩ := mem_projLine _ _ _ h1
            subst hl
            rw [fioLabel_eq]
            exact projLine_shape 'E' 'Ф' _ v (by decide) (by decide) (by decide)
              (GoodOpt_noNl hf hv)
          · obtain ⟨v, hv, hl⟩ := mem_projLine _ _ _ h1
            subst hl
            rw [phoneLabel_eq]
            exact projLine_shape 'E' 'Т' _ v (by decide) (by decide) (by decide)
              (GoodOpt_noNl hp hv))
      ⟨c, cs, rfl, hc⟩ hnl

/-- Claim C10 (amended): the safe projection is idempotent for every input
whose extracted `Телефон:` and `Email:` values, when present, begin with a
non-whitespace character. (The claim as stated fails: a whitespace-only
extracted value re-joins as a line whose `\s*` crosses the newline on
re-extraction and absorbs the following line; see the counterexample.) -/
theorem claim_C10 (t : List Char)
    (hp : headNonWsB (reSearch phoneLabel true t) = true)
    (he : headNonWsB (reSearch emailLabel true t) = true) :
    keepOnlyFioPhoneEmailMasked (keepOnlyFioPhoneEmailMasked t) =
      keepOnlyFioPhoneEmailMasked t := by
  have hPGood : GoodOpt (reSearch phoneLabel true t) := by
    cases hP : reSearch phoneLabel true t with
    | none => exact Or.inl rfl
    | some v =>
      obtain ⟨hne, hnl⟩ := reSearch_some phoneLabel t true v hP
      cases v with
      | nil => exact absurd rfl hne
      | cons c cs =>
        rw [hP] at hp
        refine Or.inr ⟨c, cs, rfl, ?_, hnl⟩
        simpa [headNonWsB] using hp
  have hEGood : GoodOpt (reSearch emailLabel true t) := by
    cases hE : reSearch emailLabel true t with
    | none => exact Or.inl rfl
    | some v =>
      obtain ⟨hne, hnl⟩ := reSearch_some emailLabel t true v hE
      cases v with
      | nil => exact absurd rfl hne
      | cons c cs =>
        rw [hE] at he
        refine Or.inr ⟨c, cs, rfl, ?_, hnl⟩
        simpa [headNonWsB] using he
  obtain ⟨fN, hfNGood, hproj, hfNstrip⟩ :
      ∃ fN, GoodOpt fN ∧
        projLine fioLabel ((reSearch fioLabel true t).map pyStrip) =
          projLine fioLabel fN ∧
        fN.map pyStrip = fN := by
    cases hF : reSearch fioLabel true t with
    | none => exact ⟨Option.none, Or.inl rfl, rfl, rfl⟩
    | some g =>
      obtain ⟨_, hgnl⟩ := reSearch_some fioLabel t true g hF
      cases hsg : pyStrip g with
      | nil =>
        refine ⟨Option.none, Or.inl rfl, ?_, rfl⟩
        show projLine fioLabel (some (pyStrip g)) = projLine fioLabel Option.none
        rw [hsg]
        rfl
      | cons c cs =>
        refine ⟨some (c :: cs),
          Or.inr ⟨c, cs, rfl, pyStrip_head g c cs hsg, ?_⟩, ?_, ?_⟩
        · intro x hx
          rw [← hsg] at hx
          exact hgnl x (mem_pyStrip g x hx)
        · show projLine fioLabel (some (pyStrip g)) = projLine fioLabel (some (c :: cs))
          rw [hsg]
        · show Option.map pyStrip (some (c :: cs)) = some (c :: cs)
          have : pyStrip (c :: cs) = c :: cs := by
            rw [← hsg, pyStrip_idem, hsg]
          simp [this]
  have hout : keepOnlyFioPhoneEmailMasked t =
      joinLines (summaryMarker :: projectionLines fN
        (reSearch phoneLabel true t) (reSearch emailLabel true t)) := by
    show joinLines (summaryMarker :: projectionLines
        ((reSearch fioLabel true t).map pyStrip)
        (reSearch phoneLabel true t) (reSearch emailLabel true t)) = _
    rw [projectionLines, projectionLines, hproj]
  have h1 := reSearch_out_fio fN (reSearch phoneLabel true t)
    (reSearch emailLabel true t) hfNGood hPGood hEGood
  have h2 := reSearch_out_phone fN (reSearch phoneLabel true t)
    (reSearch emailLabel true t) hfNGood hPGood hEGood
  have h3 := reSearch_out_email fN (reSearch phoneLabel true t)
    (reSearch emailLabel true t) hfNGood hPGood hEGood
  rw [hout]
  show joinLines (summaryMarker :: projectionLines
      ((reSearch fioLabel true (joinLines (summaryMarker :: projectionLines fN
        (reSearch phoneLabel true t) (reSearch emailLabel true t)))).map pyStrip)
      (reSearch phoneLabel true (joinLines (summaryMarker :: projectionLines fN
        (reSearch phoneLabel true t) (reSearch emailLabel true t))))
      (reSearch emailLabel true (joinLines (summaryMarker :: projectionLines fN
        (reSearch phoneLabel true t) (reSearch emailLabel true t))))) = _
  rw [h1, h2, h3, hfNstrip]

/-- Claim C10, counterexample to the claim as stated: for the input
`"Email: x\nТелефон: "` the first pass extracts the phone value `" "`
(a single space) and the email value `"x"`; reapplying the transform to
its own output turns the phone value into `"Email: x"` — the `\s*` of the
phone pattern crosses the newline — so the transform is not idempotent. -/
theorem claim_C10_counterexample :
    keepOnlyFioPhoneEmailMasked (keepOnlyFioPhoneEmailMasked
        ("Email: x\nТелефон: ".data)) ≠
      keepOnlyFioPhoneEmailMasked ("Email: x\nТелефон: ".data) := by decide

/-- Claim C10, witness: the amended theorem applied to a well-formed
summary whose phone and email values start with non-whitespace. -/
theorem claim_C10_witness :
    keepOnlyFioPhoneEmailMasked (keepOnlyFioPhoneEmailMasked
        ("ФИО: Иванов Иван\nТелефон: +7 900\nEmail: a@b".data)) =
      keepOnlyFioPhoneEmailMasked ("ФИО: Иванов Иван\nТелефон: +7 900\nEmail: a@b".data) :=
  claim_C10 ("ФИО: Иванов Иван\nТелефон: +7 900\nEmail: a@b".data)
    (by decide) (by decide)

end UserbotTester
